import Mathlib

/-!
Verification development for the EVStats dashboard core
(`src/evstats_WebApp.py`): a shallow embedding of the data aggregation
and normalization logic, with theorems about the spec's claims.

JSON values are modelled by the inductive type `Json`; numbers are
modelled as integers (the counts handled by the program are integral).
Python dicts are association lists read with last-occurrence-wins
lookup (`lastLookup`), matching `json.loads` duplicate-key collapse,
and iterated in first-occurrence key order with last values
(`dedupKeys`), matching Python dict semantics.  Network effects are
passed in explicitly: the daily fetcher becomes an oracle
`String → Option Json` and the maker-metrics request an `HttpResult`.
A Python function that can raise is embedded as an `Option`-returning
function, `none` meaning an uncaught exception.
-/

inductive Json where
  | null : Json
  | bool : Bool → Json
  | num : Int → Json
  | str : String → Json
  | arr : List Json → Json
  | obj : List (String × Json) → Json

/-- Last-occurrence-wins lookup: Python dict access for an association
list that stands for a dict (duplicate keys collapse, last wins). -/
def lastLookup {α : Type} (l : List (String × α)) (k : String) : Option α :=
  l.foldl (fun acc p => if p.1 = k then some p.2 else acc) none

/-- Keys in first-occurrence order (Python dict key order); the fuel
argument makes the recursion structural (the list shrinks at every
step, so `length` fuel always suffices). -/
def firstKeysAux : Nat → List String → List String
  | 0, _ => []
  | _, [] => []
  | fuel + 1, k :: rest => k :: firstKeysAux fuel (rest.filter (fun k2 => k2 ≠ k))

def firstKeys (ks : List String) : List String := firstKeysAux ks.length ks

/-- View an association list as the Python dict it denotes: unique keys
in first-occurrence order, each carrying its last value. -/
def dedupKeys (l : List (String × Json)) : List (String × Json) :=
  (firstKeys (l.map Prod.fst)).map (fun k => (k, (lastLookup l k).getD Json.null))

/-- Value of a nonempty all-digit character list. -/
def digitsVal (cs : List Char) : Option Nat :=
  if cs ≠ [] ∧ cs.all Char.isDigit then
    some (cs.foldl (fun a c => a * 10 + (c.toNat - 48)) 0)
  else none

/-- Integer parse of a string: optional leading minus sign, then a
nonempty run of digits (the integral fragment of Python `int(str)`). -/
def pyIntOfString (s : String) : Option Int :=
  match s.toList with
  | '-' :: rest => (digitsVal rest).map (fun n => -(n : Int))
  | cs => (digitsVal cs).map (fun n => (n : Int))

/-- Python `int(c)` on a JSON value: defined on numbers, booleans and
integer-parsable strings, raises (`none`) otherwise. -/
def pyInt : Json → Option Int
  | Json.num n => some n
  | Json.bool b => some (if b then 1 else 0)
  | Json.str s => pyIntOfString s
  | _ => none

/-- `pd.to_numeric(col, errors="coerce").fillna(0)` on one cell:
numbers kept, parsable strings parsed, everything else (null, lists,
objects, unparsable strings) becomes 0. -/
def coerceCell (c : Json) : Json :=
  Json.num (match c with
    | Json.num n => n
    | Json.bool b => if b then 1 else 0
    | Json.str s => (pyIntOfString s).getD 0
    | _ => 0)

/-- Python `x[k]` on a JSON value inside a try block: a key lookup when
`x` is a dict, an exception (`none`) otherwise. -/
def jsonChild (j : Json) (k : String) : Option Json :=
  match j with
  | Json.obj fields => lastLookup fields k
  | _ => none

/-- One probe of `daily_json[version]["cars"]["models"]`, accepted only
when it lands on a dict; the dict is read off with Python dict
semantics (`dedupKeys`). -/
def tryVersion (daily_json : Json) (version : String) : Option (List (String × Json)) :=
  match jsonChild daily_json version with
  | none => none
  | some lvl1 =>
    match jsonChild lvl1 "cars" with
    | none => none
    | some lvl2 =>
      match jsonChild lvl2 "models" with
      | none => none
      | some models =>
        match models with
        | Json.obj fields => some (dedupKeys fields)
        | _ => none

/-- `extract_car_models`: probe `v2` then `v1` for a
`version → cars → models` dict; empty dict when neither probe lands on
a dict or the input is not a dict. -/
def extract_car_models (daily_json : Json) : List (String × Json) :=
  match daily_json with
  | Json.obj _ =>
    match tryVersion daily_json "v2" with
    | some models => models
    | none =>
      match tryVersion daily_json "v1" with
      | some models => models
      | none => []
  | _ => []

/-- Calendar dates as plain integer triples; `datetime.date` comparison
is lexicographic on (year, month, day). -/
structure Date where
  year : Int
  month : Int
  day : Int

def dateLt (a b : Date) : Bool :=
  a.year < b.year ||
    (a.year == b.year && (a.month < b.month ||
      (a.month == b.month && a.day < b.day)))

def dateLe (a b : Date) : Bool :=
  a.year < b.year ||
    (a.year == b.year && (a.month < b.month ||
      (a.month == b.month && a.day ≤ b.day)))

/-- `min(end, TODAY)` on dates. -/
def minDate (a b : Date) : Date := if dateLe a b then a else b

def isLeap (y : Int) : Bool :=
  (y % 4 == 0 && y % 100 != 0) || y % 400 == 0

/-- `calendar.monthrange(year, month)[1]`: number of days in the month. -/
def daysInMonth (y m : Int) : Int :=
  if m = 2 then (if isLeap y then 29 else 28)
  else if m = 4 ∨ m = 6 ∨ m = 9 ∨ m = 11 then 30
  else 31

def pad2 (n : Int) : String :=
  if 0 ≤ n ∧ n < 10 then "0" ++ toString n else toString n

/-- `cur.strftime("%Y-%m-%d")`. -/
def fmtDate (y m d : Int) : String :=
  toString y ++ "-" ++ pad2 m ++ "-" ++ pad2 d

/-- The day numbers `1, 2, ..., n` iterated by the month loop. -/
def dayRange (n : Int) : List Int :=
  (List.range n.toNat).map (fun (i : Nat) => (i : Int) + 1)

/-- Last `n` elements of a list (`df.tail(n)`). -/
def takeLast {α : Type} (n : Nat) (l : List α) : List α :=
  l.drop (l.length - n)

/-! ## Monthly Aggregator (`fetch_month_daily_aggregated`) -/

/-- The fixed maker allow-list. -/
def MAKERS : List String :=
  ["total", "byd", "volvo", "hyundai", "tesla", "geely", "leapmotor"]

/-- One row of `daily_rows`: the date string plus the sparse per-model
counts of that day (raw JSON values, as stored by `row[m] = c`). -/
structure DailyRow where
  date : String
  models : List (String × Json)

/-- `models = extract_car_models(js) if js else {}` for one date. -/
def dayModels (fetch : String → Option Json) (ds : String) : List (String × Json) :=
  match fetch ds with
  | some j => extract_car_models j
  | none => []

/-- `aggregated[m] = aggregated.get(m, 0) + v`: Python dict update,
existing keys keep their position, new keys are appended. -/
def addCount (agg : List (String × Int)) (m : String) (v : Int) : List (String × Int) :=
  if (agg.map Prod.fst).contains m then
    agg.map (fun p => if p.1 = m then (p.1, p.2 + v) else p)
  else agg ++ [(m, v)]

/-- The inner `for m, c in models.items()` loop over one day's model
map: each count goes through `int(c)`, which may raise (`none`). -/
def foldCounts (agg : List (String × Int)) : List (String × Json) → Option (List (String × Int))
  | [] => some agg
  | (m, c) :: rest =>
    match pyInt c with
    | some v => foldCounts (addCount agg m v) rest
    | none => none

/-- The `while cur <= end` loop over the day numbers of the month:
fetch, extract, record a `DailyRow`, accumulate the monthly totals. -/
def runDays (fetch : String → Option Json) (y mo : Int) :
    List Int → List (String × Int) → Option (List DailyRow × List (String × Int))
  | [], agg => some ([], agg)
  | d :: rest, agg =>
    let ds := fmtDate y mo d
    let models := dayModels fetch ds
    match foldCounts agg models with
    | none => none
    | some agg2 =>
      match runDays fetch y mo rest agg2 with
      | none => none
      | some (rows, aggF) => some (DailyRow.mk ds models :: rows, aggF)

/-- A densified matrix (`pd.DataFrame(daily_rows).fillna(0)`): a shared
column list and one aligned cell list per row. -/
structure Frame where
  cols : List String
  rows : List (List Json)

/-- The dict built for one day: `{"Date": date_str}` then `row[m] = c`
for each model (Python dict semantics via `dedupKeys`). -/
def rowDict (r : DailyRow) : List (String × Json) :=
  dedupKeys (("Date", Json.str r.date) :: r.models)

/-- Accumulate the union of column names in first-appearance order, as
`pd.DataFrame` does for a list of dicts. -/
def addCols (acc : List String) (ks : List String) : List String :=
  ks.foldl (fun a k => if a.contains k then a else a ++ [k]) acc

/-- `pd.DataFrame(daily_rows).fillna(0)`: union the row dicts' keys
into one column list, then read every cell, filling absent keys with
the integer 0. -/
def densify (rows : List DailyRow) : Frame :=
  let dicts := rows.map rowDict
  let cols := dicts.foldl (fun acc d => addCols acc (d.map Prod.fst)) []
  Frame.mk cols
    (dicts.map (fun d => cols.map (fun k => (lastLookup d k).getD (Json.num 0))))

/-- Descending insertion keeping earlier elements first among equal
counts (one concrete descending order; the source's sort is
`sort_values("Count", ascending=False)`). -/
def insertDesc (x : String × Int) : List (String × Int) → List (String × Int)
  | [] => [x]
  | y :: ys => if y.2 < x.2 then x :: y :: ys else y :: insertDesc x ys

def sortDesc (l : List (String × Int)) : List (String × Int) :=
  l.foldr insertDesc []

/-- The summary table: empty when nothing aggregated, else the model
totals sorted descending by count. -/
def monthlySummary (agg : List (String × Int)) : List (String × Int) :=
  if agg.isEmpty then [] else sortDesc agg

/-- `fetch_month_daily_aggregated(year, month)`, with the network and
the current date passed in explicitly.  Returns `none` when the Python
function raises (an `int(c)` failure inside the loop). -/
def fetch_month_daily_aggregated (fetch : String → Option Json) (today : Date)
    (year month : Int) : Option (Frame × List (String × Int)) :=
  let lastDay := daysInMonth year month
  let start := Date.mk year month 1
  if dateLt today start then some (Frame.mk [] [], [])
  else
    let e := minDate (Date.mk year month lastDay) today
    match runDays fetch year month (dayRange e.day) [] with
    | none => none
    | some (rows, agg) => some (densify rows, monthlySummary agg)

/-! ## Maker-Metrics Fetcher & Normalizer (`fetch_maker_metrics`) -/

/-- Outcome of the maker-metrics HTTP request: a transport exception,
or a status code with an optional parsed body (`none` body means
`r.json()` raised). -/
inductive HttpResult where
  | fail : HttpResult
  | resp : Int → Option Json → HttpResult

/-- The normalized table: the `Period` column plus one column per
maker, in insertion order. -/
structure MakerTable where
  period : List Json
  cols : List (String × List Json)

def emptyTable : MakerTable := MakerTable.mk [] []

/-- The `data["data"]` unwrap: one level removed when `data` is a dict
containing a dict under the key `"data"`. -/
def unwrapData (data : Json) : Json :=
  match data with
  | Json.obj fields =>
    match lastLookup fields "data" with
    | some (Json.obj inner) => Json.obj inner
    | _ => data
  | _ => data

/-- One maker column in the dict-shaped branch:
`series = data.get(maker, [])`, accepted only as a list aligned with
`periods`, otherwise a same-length all-null column. -/
def seriesFor (periods : List Json) (dataFields : List (String × Json))
    (maker : String) : List Json :=
  match (lastLookup dataFields maker).getD (Json.arr []) with
  | Json.arr s =>
    if s.length = periods.length then s
    else List.replicate periods.length Json.null
  | _ => List.replicate periods.length Json.null

/-- One cell in the list-of-rows branch: `data[i].get(maker)`, null on
any failure (index out of range, entry not a dict, key missing). -/
def listEntryCell (rows : List Json) (i : Nat) (maker : String) : Json :=
  match rows.get? i with
  | some (Json.obj fields) => (lastLookup fields maker).getD Json.null
  | _ => Json.null

/-- One maker column in the list-of-rows branch, built by position
over the periods. -/
def seriesFromRows (periods : List Json) (rows : List Json) (maker : String) : List Json :=
  (List.range periods.length).map (fun i => listEntryCell rows i maker)

/-- The table built straight from `periods` and the (unwrapped) `data`,
before the drop / numeric coercion / tail steps. -/
def shapedTable (periods data : Json) : Option MakerTable :=
  match periods, data with
  | Json.arr ps, Json.obj dataFields =>
    some (MakerTable.mk ps (MAKERS.map (fun maker => (maker, seriesFor ps dataFields maker))))
  | Json.arr ps, Json.arr rows =>
    some (MakerTable.mk ps (MAKERS.map (fun maker => (maker, seriesFromRows ps rows maker))))
  | _, _ => none

/-- Drop the legacy `acc`/`bevshare` columns if present. -/
def dropLegacy (t : MakerTable) : MakerTable :=
  MakerTable.mk t.period
    (t.cols.filter (fun p => ¬(p.1 = "acc" ∨ p.1 = "bevshare")))

/-- `pd.to_numeric(df[maker], errors="coerce").fillna(0)` applied to
every maker column present. -/
def coerceTable (t : MakerTable) : MakerTable :=
  MakerTable.mk t.period
    (t.cols.map (fun p =>
      if MAKERS.contains p.1 then (p.1, p.2.map coerceCell) else p))

/-- Everything inside the `try` block up to (not including) the tail
truncation: status / body / shape checks, series building, legacy
drop, numeric coercion.  Failure paths yield the empty table. -/
def rawTable (r : HttpResult) : MakerTable :=
  match r with
  | HttpResult.fail => emptyTable
  | HttpResult.resp status body =>
    if status ≠ 200 then emptyTable
    else
      match body with
      | none => emptyTable
      | some js =>
        match js with
        | Json.obj fields =>
          let periods := (lastLookup fields "periods").getD (Json.arr [])
          let data := unwrapData ((lastLookup fields "data").getD (Json.obj []))
          match shapedTable periods data with
          | none => emptyTable
          | some t => coerceTable (dropLegacy t)
        | _ => emptyTable

/-- The trailing-window size per bucket (`tail(18/12/10)`). -/
def windowSize (time_period : String) : Nat :=
  if time_period = "month" then 18
  else if time_period = "quarter" then 12
  else 10

/-- `df.tail(n)` on the whole table. -/
def tailTable (n : Nat) (t : MakerTable) : MakerTable :=
  MakerTable.mk (takeLast n t.period)
    (t.cols.map (fun p => (p.1, takeLast n p.2)))

/-- `fetch_maker_metrics(time_period)`, with the HTTP outcome passed in
explicitly.  An invalid bucket short-circuits to the empty table; the
failure paths inside the `try` return the empty table before the tail
step, which is observationally the same as tailing the empty table. -/
def fetch_maker_metrics (time_period : String) (r : HttpResult) : MakerTable :=
  if time_period = "month" ∨ time_period = "quarter" ∨ time_period = "year" then
    tailTable (windowSize time_period) (rawTable r)
  else emptyTable

/-! ## Latest-Value Summarizer (`maker_latest_list`) -/

/-- The `for maker in MAKERS` loop of `maker_latest_list`: for each
maker present as a column, `int()` of the column's cell at the last
row.  `none` models a raised exception (no last cell, or `int()`
failing on the cell). -/
def latestEntries (cols : List (String × List Json)) :
    List String → Option (List (String × Int))
  | [] => some []
  | maker :: rest =>
    match lastLookup cols maker with
    | none => latestEntries cols rest
    | some col =>
      match col.getLast? with
      | none => none
      | some cell =>
        match pyInt cell with
        | none => none
        | some v => (latestEntries cols rest).map (fun out => (maker, v) :: out)

/-- `maker_latest_list(df)`: empty ranking for an empty table, else the
per-maker latest values sorted descending.  `none` models a raise:
an `int()` failure, or `sort_values` on the column-less frame produced
when no maker column exists (`pd.DataFrame([])`). -/
def maker_latest_list (t : MakerTable) : Option (List (String × Int)) :=
  if t.period.isEmpty then some []
  else
    match latestEntries t.cols MAKERS with
    | none => none
    | some out => if out.isEmpty then none else some (sortDesc out)

/-! ## Support lemmas: dict lookups -/

theorem lastLookup_go {α : Type} (l : List (String × α)) (k : String) (acc : Option α) :
    List.foldl (fun a (p : String × α) => if p.1 = k then some p.2 else a) acc l =
      match List.foldl (fun a (p : String × α) => if p.1 = k then some p.2 else a) none l with
      | some v => some v
      | none => acc := by
  induction l generalizing acc with
  | nil => simp
  | cons p rest ih =>
    simp only [List.foldl_cons]
    rw [ih, ih (if p.1 = k then some p.2 else none)]
    cases hfold : List.foldl (fun a (q : String × α) => if q.1 = k then some q.2 else a) none rest with
    | some v => simp
    | none => by_cases hp : p.1 = k <;> simp [hp]

theorem lastLookup_nil {α : Type} (k : String) : lastLookup ([] : List (String × α)) k = none := rfl

theorem lastLookup_cons {α : Type} (p : String × α) (l : List (String × α)) (k : String) :
    lastLookup (p :: l) k =
      match lastLookup l k with
      | some v => some v
      | none => if p.1 = k then some p.2 else none := by
  show List.foldl _ (if p.1 = k then some p.2 else none) l = _
  rw [lastLookup_go]
  rfl

theorem lastLookup_append {α : Type} (l1 l2 : List (String × α)) (k : String) :
    lastLookup (l1 ++ l2) k =
      match lastLookup l2 k with
      | some v => some v
      | none => lastLookup l1 k := by
  show List.foldl _ none (l1 ++ l2) = _
  rw [List.foldl_append, lastLookup_go]
  rfl

theorem lastLookup_isSome_of_mem_keys {α : Type} {l : List (String × α)} {k : String}
    (h : k ∈ l.map Prod.fst) : (lastLookup l k).isSome = true := by
  induction l with
  | nil => simp at h
  | cons p rest ih =>
    rw [lastLookup_cons]
    cases hrest : lastLookup rest k with
    | some v => rfl
    | none =>
      simp only [List.map_cons, List.mem_cons] at h
      rcases h with h | h
      · simp [h]
      · have := ih h
        rw [hrest] at this
        simp at this

theorem lastLookup_eq_none_of_not_mem {α : Type} {l : List (String × α)} {k : String}
    (h : k ∉ l.map Prod.fst) : lastLookup l k = none := by
  induction l with
  | nil => rfl
  | cons p rest ih =>
    simp only [List.map_cons, List.mem_cons, not_or] at h
    rw [lastLookup_cons, ih h.2]
    simp only []
    split
    · next hh => exact absurd hh.symm h.1
    · rfl

theorem lastLookup_of_mem_nodup {α : Type} {l : List (String × α)} {k : String} {v : α}
    (hnd : (l.map Prod.fst).Nodup) (hmem : (k, v) ∈ l) : lastLookup l k = some v := by
  induction l with
  | nil => simp at hmem
  | cons p rest ih =>
    simp only [List.map_cons, List.nodup_cons] at hnd
    rw [lastLookup_cons]
    rcases List.mem_cons.mp hmem with h | h
    · have hk : p.1 = k := by rw [← h]
      have hnot : k ∉ rest.map Prod.fst := by rw [← hk]; exact hnd.1
      rw [lastLookup_eq_none_of_not_mem hnot]
      simp [hk, ← h]
    · rw [ih hnd.2 h]

theorem lastLookup_map_self {α : Type} {ms : List String} {k : String} (g : String → α)
    (h : k ∈ ms) :
    lastLookup (ms.map (fun m => (m, g m))) k = some (g k) := by
  induction ms with
  | nil => simp at h
  | cons m rest ih =>
    simp only [List.map_cons]
    rw [lastLookup_cons]
    by_cases hk : k ∈ rest
    · rw [ih hk]
    · have hm : m = k := by
        rcases List.mem_cons.mp h with h | h
        · exact h.symm
        · exact absurd h hk
      have : lastLookup (rest.map (fun m2 => (m2, g m2))) k = none := by
        apply lastLookup_eq_none_of_not_mem
        simp only [List.map_map]
        simpa using hk
      rw [this]
      simp [hm]

/-! ## Support lemmas: dict key order and dedup -/

theorem firstKeysAux_mem {k : String} : ∀ (fuel : Nat) (ks : List String),
    k ∈ firstKeysAux fuel ks → k ∈ ks := by
  intro fuel
  induction fuel with
  | zero => intro ks h; rw [firstKeysAux] at h; simp at h
  | succ fuel ih =>
    intro ks h
    cases ks with
    | nil => simp [firstKeysAux] at h
    | cons k1 rest =>
      rw [firstKeysAux] at h
      rcases List.mem_cons.mp h with h | h
      · simp [h]
      · exact List.mem_cons.mpr (Or.inr (List.mem_of_mem_filter (ih _ h)))

theorem firstKeys_mem {k : String} {ks : List String} (h : k ∈ firstKeys ks) : k ∈ ks :=
  firstKeysAux_mem _ _ h

theorem firstKeysAux_nodup : ∀ (fuel : Nat) (ks : List String),
    (firstKeysAux fuel ks).Nodup := by
  intro fuel
  induction fuel with
  | zero => intro ks; rw [firstKeysAux]; exact List.nodup_nil
  | succ fuel ih =>
    intro ks
    cases ks with
    | nil => simp [firstKeysAux]
    | cons k1 rest =>
      rw [firstKeysAux]
      refine List.nodup_cons.mpr ⟨?_, ih _⟩
      intro hmem
      have := List.of_mem_filter (firstKeysAux_mem _ _ hmem)
      simp at this

theorem firstKeys_nodup (ks : List String) : (firstKeys ks).Nodup :=
  firstKeysAux_nodup _ _

theorem firstKeysAux_mem_of_mem {k : String} : ∀ (fuel : Nat) (ks : List String),
    ks.length ≤ fuel → k ∈ ks → k ∈ firstKeysAux fuel ks := by
  intro fuel
  induction fuel with
  | zero =>
    intro ks hlen h
    cases ks with
    | nil => simp at h
    | cons k1 rest => simp at hlen
  | succ fuel ih =>
    intro ks hlen h
    cases ks with
    | nil => simp at h
    | cons k1 rest =>
      rw [firstKeysAux]
      by_cases hk : k = k1
      · exact List.mem_cons.mpr (Or.inl hk)
      · rcases List.mem_cons.mp h with h | h
        · exact absurd h hk
        · refine List.mem_cons.mpr (Or.inr (ih _ ?_ ?_))
          · have := List.length_filter_le (fun k2 => k2 ≠ k1) rest
            simp only [List.length_cons] at hlen
            omega
          · exact List.mem_filter.mpr ⟨h, by simpa using hk⟩

theorem firstKeys_iff {k : String} {ks : List String} : k ∈ firstKeys ks ↔ k ∈ ks := by
  constructor
  · exact firstKeys_mem
  · exact firstKeysAux_mem_of_mem _ _ (Nat.le_refl _)

theorem firstKeysAux_eq_self : ∀ (fuel : Nat) {ks : List String},
    ks.length ≤ fuel → ks.Nodup → firstKeysAux fuel ks = ks := by
  intro fuel
  induction fuel with
  | zero =>
    intro ks hlen hnd
    cases ks with
    | nil => rfl
    | cons k1 rest => simp at hlen
  | succ fuel ih =>
    intro ks hlen hnd
    cases ks with
    | nil => rfl
    | cons k1 rest =>
      rcases List.nodup_cons.mp hnd with ⟨hk1, hrest⟩
      rw [firstKeysAux]
      have hfil : rest.filter (fun k2 => k2 ≠ k1) = rest := by
        apply List.filter_eq_self.mpr
        intro a ha
        have : a ≠ k1 := fun hh => hk1 (hh ▸ ha)
        simpa using this
      rw [hfil, ih ?_ hrest]
      simp only [List.length_cons] at hlen
      omega

theorem firstKeys_eq_self {ks : List String} (h : ks.Nodup) : firstKeys ks = ks :=
  firstKeysAux_eq_self _ (Nat.le_refl _) h

theorem dedupKeys_keys (l : List (String × Json)) :
    (dedupKeys l).map Prod.fst = firstKeys (l.map Prod.fst) := by
  unfold dedupKeys
  rw [List.map_map]
  exact List.map_id'' (fun x => rfl) _

theorem dedupKeys_keys_nodup (l : List (String × Json)) :
    ((dedupKeys l).map Prod.fst).Nodup := by
  rw [dedupKeys_keys]
  exact firstKeys_nodup _

theorem map_lastLookup_self : ∀ (l : List (String × Json)), (l.map Prod.fst).Nodup →
    (l.map Prod.fst).map (fun k => (k, (lastLookup l k).getD Json.null)) = l := by
  intro l
  induction l with
  | nil => intro _; rfl
  | cons p rest ih =>
    intro h
    rw [List.map_cons] at h
    rcases List.nodup_cons.mp h with ⟨hp, hrest⟩
    simp only [List.map_cons]
    refine List.cons_eq_cons.mpr ⟨?_, ?_⟩
    · rw [lastLookup_cons, lastLookup_eq_none_of_not_mem hp]
      simp
    · have hcong : (rest.map Prod.fst).map (fun k => (k, (lastLookup (p :: rest) k).getD Json.null))
          = (rest.map Prod.fst).map (fun k => (k, (lastLookup rest k).getD Json.null)) := by
        apply List.map_congr_left
        intro k hk
        rcases Option.isSome_iff_exists.mp (lastLookup_isSome_of_mem_keys hk) with ⟨v, hv⟩
        rw [lastLookup_cons, hv]
      rw [hcong, ih hrest]

theorem dedupKeys_eq_self {l : List (String × Json)} (h : (l.map Prod.fst).Nodup) :
    dedupKeys l = l := by
  unfold dedupKeys
  rw [firstKeys_eq_self h]
  exact map_lastLookup_self l h

/-! ## Support lemmas: descending sort -/

theorem insertDesc_perm (x : String × Int) (l : List (String × Int)) :
    (insertDesc x l).Perm (x :: l) := by
  induction l with
  | nil => exact List.Perm.refl _
  | cons y ys ih =>
    rw [insertDesc]
    split
    · exact List.Perm.refl _
    · exact (ih.cons y).trans (List.Perm.swap x y ys)

theorem mem_insertDesc {z x : String × Int} {l : List (String × Int)} :
    z ∈ insertDesc x l ↔ z = x ∨ z ∈ l := by
  rw [List.Perm.mem_iff (insertDesc_perm x l)]
  simp

theorem insertDesc_pairwise {x : String × Int} {l : List (String × Int)}
    (h : l.Pairwise (fun a b => b.2 ≤ a.2)) :
    (insertDesc x l).Pairwise (fun a b => b.2 ≤ a.2) := by
  induction l with
  | nil => simp [insertDesc]
  | cons y ys ih =>
    rw [insertDesc]
    rcases List.pairwise_cons.mp h with ⟨hy, hys⟩
    split
    · next hlt =>
      refine List.pairwise_cons.mpr ⟨?_, h⟩
      intro z hz
      rcases List.mem_cons.mp hz with hz | hz
      · subst hz; omega
      · have := hy z hz; omega
    · next hge =>
      refine List.pairwise_cons.mpr ⟨?_, ih hys⟩
      intro z hz
      rcases mem_insertDesc.mp hz with hz | hz
      · subst hz; omega
      · exact hy z hz

theorem sortDesc_perm (l : List (String × Int)) : (sortDesc l).Perm l := by
  induction l with
  | nil => exact List.Perm.refl _
  | cons x xs ih =>
    have : sortDesc (x :: xs) = insertDesc x (sortDesc xs) := rfl
    rw [this]
    exact (insertDesc_perm x (sortDesc xs)).trans (ih.cons x)

theorem sortDesc_pairwise (l : List (String × Int)) :
    (sortDesc l).Pairwise (fun a b => b.2 ≤ a.2) := by
  induction l with
  | nil => exact List.Pairwise.nil
  | cons x xs ih => exact insertDesc_pairwise ih

/-! ## Support lemmas: the monthly accumulator -/

/-- The total the accumulator dict reports for a model (0 if absent). -/
def aggVal (agg : List (String × Int)) (m : String) : Int :=
  (lastLookup agg m).getD 0

/-- One day's contribution of a model, as summed by the inner loop. -/
def itemsSum (items : List (String × Json)) (m : String) : Int :=
  (items.map (fun p => if p.1 = m then (pyInt p.2).getD 0 else 0)).sum

/-- The per-day count of a model: the value its day's model map holds
for it (0 when the model is absent that day). -/
def perDayCount (fetch : String → Option Json) (y mo d : Int) (m : String) : Int :=
  match lastLookup (dayModels fetch (fmtDate y mo d)) m with
  | some c => (pyInt c).getD 0
  | none => 0

theorem lastLookup_update (agg : List (String × Int)) (k : String) (v : Int) (m : String) :
    lastLookup (agg.map (fun p => if p.1 = k then (p.1, p.2 + v) else p)) m
      = (lastLookup agg m).map (fun w => if k = m then w + v else w) := by
  induction agg with
  | nil => rfl
  | cons p rest ih =>
    simp only [List.map_cons]
    rw [lastLookup_cons, lastLookup_cons, ih]
    cases hrest : lastLookup rest m with
    | some u => simp
    | none =>
      by_cases hpk : p.1 = k
      · by_cases hpm : p.1 = m
        · have hkm : k = m := hpk.symm.trans hpm
          simp [hpk, hpm, hkm]
        · have hkm : ¬(k = m) := fun h => hpm (hpk.trans h)
          simp [hpk, hpm, hkm]
      · by_cases hpm : p.1 = m
        · have hkm : ¬(k = m) := fun h => hpk (hpm.trans h.symm)
          have hmk : ¬(m = k) := fun h => hkm h.symm
          simp [hpk, hpm, hkm, hmk]
        · simp [hpk, hpm]

theorem aggVal_addCount (agg : List (String × Int)) (k : String) (v : Int) (m : String) :
    aggVal (addCount agg k v) m = aggVal agg m + (if k = m then v else 0) := by
  unfold addCount aggVal
  by_cases hc : (agg.map Prod.fst).contains k
  · rw [if_pos hc, lastLookup_update]
    cases hm : lastLookup agg m with
    | none =>
      have hkm : ¬(k = m) := by
        intro h
        subst h
        have := lastLookup_isSome_of_mem_keys (List.elem_iff.mp hc)
        rw [hm] at this
        simp at this
      simp [hkm]
    | some w => by_cases hkm : k = m <;> simp [hkm]
  · rw [if_neg hc, lastLookup_append]
    have hknot : k ∉ agg.map Prod.fst := fun h => hc (List.elem_iff.mpr h)
    by_cases hkm : k = m
    · subst hkm
      rw [lastLookup_eq_none_of_not_mem hknot]
      have : lastLookup [(k, v)] k = some v := by
        rw [lastLookup_cons, lastLookup_nil]
        simp
      rw [this]
      simp
    · have : lastLookup [(k, v)] m = none := by
        rw [lastLookup_cons, lastLookup_nil]
        simp [hkm]
      rw [this]
      simp [hkm]

theorem foldCounts_aggVal : ∀ (items : List (String × Json)) (agg agg2 : List (String × Int))
    (m : String), foldCounts agg items = some agg2 →
    aggVal agg2 m = aggVal agg m + itemsSum items m := by
  intro items
  induction items with
  | nil =>
    intro agg agg2 m h
    rw [foldCounts] at h
    cases h
    simp [itemsSum]
  | cons p rest ih =>
    intro agg agg2 m h
    obtain ⟨mk, c⟩ := p
    rw [foldCounts] at h
    cases hpy : pyInt c with
    | none => rw [hpy] at h; cases h
    | some v =>
      rw [hpy] at h
      rw [ih _ _ m h, aggVal_addCount]
      unfold itemsSum
      simp only [List.map_cons, List.sum_cons, hpy]
      by_cases hkm : mk = m
      · simp [hkm]
        ring
      · simp [hkm]

theorem foldCounts_isSome (items : List (String × Json)) :
    ∀ (agg : List (String × Int)), (∀ p ∈ items, (pyInt p.2).isSome = true) →
    (foldCounts agg items).isSome = true := by
  induction items with
  | nil => intro agg _; rfl
  | cons p rest ih =>
    intro agg h
    obtain ⟨mk, c⟩ := p
    rw [foldCounts]
    cases hpy : pyInt c with
    | none =>
      have := h (mk, c) (List.mem_cons_self _ _)
      rw [hpy] at this
      simp at this
    | some v => exact ih _ (fun q hq => h q (List.mem_cons_of_mem _ hq))

theorem addCount_keys_nodup {agg : List (String × Int)} (k : String) (v : Int)
    (h : (agg.map Prod.fst).Nodup) : ((addCount agg k v).map Prod.fst).Nodup := by
  unfold addCount
  by_cases hc : (agg.map Prod.fst).contains k
  · rw [if_pos hc]
    have : (agg.map (fun p => if p.1 = k then (p.1, p.2 + v) else p)).map Prod.fst
        = agg.map Prod.fst := by
      rw [List.map_map]
      apply List.map_congr_left
      intro p _
      by_cases hp : p.1 = k <;> simp [hp]
    rw [this]
    exact h
  · rw [if_neg hc]
    have hknot : k ∉ agg.map Prod.fst := fun hh => hc (List.elem_iff.mpr hh)
    rw [List.map_append]
    simp only [List.map_cons, List.map_nil]
    rw [List.nodup_append]
    refine ⟨h, List.nodup_singleton _, ?_⟩
    intro a ha hb
    simp at hb
    subst hb
    exact hknot ha

theorem foldCounts_nodup : ∀ (items : List (String × Json)) (agg agg2 : List (String × Int)),
    foldCounts agg items = some agg2 → (agg.map Prod.fst).Nodup →
    (agg2.map Prod.fst).Nodup := by
  intro items
  induction items with
  | nil =>
    intro agg agg2 h hn
    rw [foldCounts] at h
    cases h
    exact hn
  | cons p rest ih =>
    intro agg agg2 h hn
    obtain ⟨mk, c⟩ := p
    rw [foldCounts] at h
    cases hpy : pyInt c with
    | none => rw [hpy] at h; cases h
    | some v =>
      rw [hpy] at h
      exact ih _ _ h (addCount_keys_nodup mk v hn)

theorem runDays_some_elim {fetch : String → Option Json} {y mo : Int} :
    ∀ {days : List Int} {agg : List (String × Int)}
      {rows : List DailyRow} {agg2 : List (String × Int)},
    runDays fetch y mo days agg = some (rows, agg2) →
    rows = days.map (fun d => DailyRow.mk (fmtDate y mo d) (dayModels fetch (fmtDate y mo d))) ∧
    (∀ m, aggVal agg2 m = aggVal agg m +
      (days.map (fun d => itemsSum (dayModels fetch (fmtDate y mo d)) m)).sum) ∧
    ((agg.map Prod.fst).Nodup → (agg2.map Prod.fst).Nodup) := by
  intro days
  induction days with
  | nil =>
    intro agg rows agg2 h
    rw [runDays] at h
    cases h
    exact ⟨rfl, fun m => by simp, fun hn => hn⟩
  | cons d rest ih =>
    intro agg rows agg2 h
    rw [runDays] at h
    cases hfc : foldCounts agg (dayModels fetch (fmtDate y mo d)) with
    | none => rw [hfc] at h; cases h
    | some agg1 =>
      rw [hfc] at h
      simp only [] at h
      cases hrd : runDays fetch y mo rest agg1 with
      | none => rw [hrd] at h; cases h
      | some pr =>
        obtain ⟨rows1, aggF⟩ := pr
        rw [hrd] at h
        simp only [] at h
        have h2 := Option.some.inj h
        rw [Prod.mk.injEq] at h2
        obtain ⟨hr, ha⟩ := h2
        subst hr
        subst ha
        obtain ⟨ihrows, ihagg, ihnd⟩ := ih hrd
        refine ⟨?_, ?_, ?_⟩
        · rw [List.map_cons, ihrows]
        · intro m
          rw [ihagg m, foldCounts_aggVal _ _ _ m hfc]
          simp only [List.map_cons, List.sum_cons]
          ring
        · intro hn
          exact ihnd (foldCounts_nodup _ _ _ hfc hn)

theorem runDays_isSome {fetch : String → Option Json} {y mo : Int} :
    ∀ (days : List Int) (agg : List (String × Int)),
    (∀ d ∈ days, ∀ p ∈ dayModels fetch (fmtDate y mo d), (pyInt p.2).isSome = true) →
    (runDays fetch y mo days agg).isSome = true := by
  intro days
  induction days with
  | nil => intro agg _; rfl
  | cons d rest ih =>
    intro agg h
    rw [runDays]
    cases hfc : foldCounts agg (dayModels fetch (fmtDate y mo d)) with
    | none =>
      have := foldCounts_isSome (dayModels fetch (fmtDate y mo d)) agg
        (h d (List.mem_cons_self _ _))
      rw [hfc] at this
      simp at this
    | some agg1 =>
      have hrest := ih agg1 (fun d2 hd2 => h d2 (List.mem_cons_of_mem _ hd2))
      cases hrd : runDays fetch y mo rest agg1 with
      | none => rw [hrd] at hrest; simp at hrest
      | some pr =>
        obtain ⟨rows1, aggF⟩ := pr
        simp only []
        rw [hrd]
        rfl

theorem tryVersion_some {j : Json} {v : String} {ms : List (String × Json)}
    (h : tryVersion j v = some ms) : ∃ fields, ms = dedupKeys fields := by
  unfold tryVersion at h
  cases h1 : jsonChild j v with
  | none => simp [h1] at h
  | some lvl1 =>
    simp only [h1] at h
    cases h2 : jsonChild lvl1 "cars" with
    | none => simp [h2] at h
    | some lvl2 =>
      simp only [h2] at h
      cases h3 : jsonChild lvl2 "models" with
      | none => simp [h3] at h
      | some models =>
        simp only [h3] at h
        cases models with
        | obj fields => exact ⟨fields, (Option.some.inj h).symm⟩
        | null => simp at h
        | bool b => simp at h
        | num n => simp at h
        | str s => simp at h
        | arr xs => simp at h

theorem extract_keys_nodup (j : Json) :
    ((extract_car_models j).map Prod.fst).Nodup := by
  unfold extract_car_models
  cases j with
  | obj fields =>
    cases h2 : tryVersion (Json.obj fields) "v2" with
    | some ms =>
      obtain ⟨fs, hfs⟩ := tryVersion_some h2
      subst hfs
      exact dedupKeys_keys_nodup fs
    | none =>
      cases h1 : tryVersion (Json.obj fields) "v1" with
      | some ms =>
        obtain ⟨fs, hfs⟩ := tryVersion_some h1
        subst hfs
        exact dedupKeys_keys_nodup fs
      | none => simp
  | null => simp
  | bool b => simp
  | num n => simp
  | str s => simp
  | arr xs => simp

theorem dayModels_keys_nodup (fetch : String → Option Json) (ds : String) :
    ((dayModels fetch ds).map Prod.fst).Nodup := by
  unfold dayModels
  cases fetch ds with
  | none => simp
  | some j => exact extract_keys_nodup j

theorem itemsSum_eq_zero {items : List (String × Json)} {m : String}
    (h : m ∉ items.map Prod.fst) : itemsSum items m = 0 := by
  induction items with
  | nil => rfl
  | cons p rest ih =>
    simp only [List.map_cons, List.mem_cons, not_or] at h
    unfold itemsSum at *
    simp only [List.map_cons, List.sum_cons]
    rw [ih h.2]
    have : ¬(p.1 = m) := fun hh => h.1 hh.symm
    simp [this]

theorem itemsSum_eq_perDay {items : List (String × Json)} {m : String}
    (hnd : (items.map Prod.fst).Nodup) :
    itemsSum items m =
      match lastLookup items m with
      | some c => (pyInt c).getD 0
      | none => 0 := by
  induction items with
  | nil => rfl
  | cons p rest ih =>
    rw [List.map_cons] at hnd
    rcases List.nodup_cons.mp hnd with ⟨hp, hrest⟩
    rw [lastLookup_cons]
    unfold itemsSum
    simp only [List.map_cons, List.sum_cons]
    by_cases hm : m ∈ rest.map Prod.fst
    · rcases Option.isSome_iff_exists.mp (lastLookup_isSome_of_mem_keys hm) with ⟨u, hu⟩
      rw [hu]
      have hpm : ¬(p.1 = m) := fun hh => hp (hh ▸ hm)
      have := ih hrest
      rw [hu] at this
      unfold itemsSum at this
      rw [this]
      simp [hpm]
    · rw [lastLookup_eq_none_of_not_mem hm]
      have h0 : itemsSum rest m = 0 := itemsSum_eq_zero hm
      unfold itemsSum at h0
      rw [h0]
      by_cases hpm : p.1 = m <;> simp [hpm]

/-! ## Support lemmas: dates and the month clamp -/

theorem dateLe_iff (a b : Date) :
    dateLe a b = true ↔
      (a.year < b.year ∨ (a.year = b.year ∧
        (a.month < b.month ∨ (a.month = b.month ∧ a.day ≤ b.day)))) := by
  simp [dateLe]

theorem dateLt_iff (a b : Date) :
    dateLt a b = true ↔
      (a.year < b.year ∨ (a.year = b.year ∧
        (a.month < b.month ∨ (a.month = b.month ∧ a.day < b.day)))) := by
  simp [dateLt]

theorem dateLe_refl (a : Date) : dateLe a a = true := by
  rw [dateLe_iff]
  omega

theorem dateLe_trans {a b c : Date} (h1 : dateLe a b = true) (h2 : dateLe b c = true) :
    dateLe a c = true := by
  rw [dateLe_iff] at *
  omega

theorem daysInMonth_pos (y m : Int) : 1 ≤ daysInMonth y m := by
  unfold daysInMonth
  split
  · split <;> omega
  · split <;> omega

/-- The clamped end date of the month loop. -/
def clampedEnd (today : Date) (y mo : Int) : Date :=
  minDate (Date.mk y mo (daysInMonth y mo)) today

/-- The day numbers actually iterated for a month that has started. -/
def clampedDays (today : Date) (y mo : Int) : List Int :=
  dayRange (clampedEnd today y mo).day

/-- When the month has started (its first day is not after today), the
clamped end date stays inside the month, is at least day 1, and does
not pass today. -/
theorem clampedEnd_spec (today : Date) (y mo : Int)
    (hstart : dateLt today (Date.mk y mo 1) = false) :
    (clampedEnd today y mo).year = y ∧ (clampedEnd today y mo).month = mo ∧
    1 ≤ (clampedEnd today y mo).day ∧ dateLe (clampedEnd today y mo) today = true := by
  unfold clampedEnd minDate
  have hL := daysInMonth_pos y mo
  by_cases h : dateLe (Date.mk y mo (daysInMonth y mo)) today = true
  · rw [if_pos h]
    exact ⟨rfl, rfl, hL, h⟩
  · rw [if_neg h]
    have hs : ¬(dateLt today (Date.mk y mo 1) = true) := by simp [hstart]
    rw [dateLt_iff] at hs
    rw [dateLe_iff] at h
    simp only [] at hs h
    refine ⟨?_, ?_, ?_, dateLe_refl today⟩ <;> omega

theorem mem_dayRange {d n : Int} : d ∈ dayRange n ↔ 1 ≤ d ∧ d ≤ n := by
  unfold dayRange
  rw [List.mem_map]
  constructor
  · rintro ⟨i, hi, rfl⟩
    rw [List.mem_range] at hi
    omega
  · intro h
    refine ⟨(d - 1).toNat, ?_, ?_⟩
    · rw [List.mem_range]
      omega
    · omega

/-- The month loop consults the fetcher only at the iterated dates. -/
theorem runDays_congr {fetch fetch2 : String → Option Json} {y mo : Int} :
    ∀ (days : List Int) (agg : List (String × Int)),
    (∀ d ∈ days, fetch (fmtDate y mo d) = fetch2 (fmtDate y mo d)) →
    runDays fetch y mo days agg = runDays fetch2 y mo days agg := by
  intro days
  induction days with
  | nil => intro agg _; rfl
  | cons d rest ih =>
    intro agg h
    rw [runDays, runDays]
    have hdm : dayModels fetch (fmtDate y mo d) = dayModels fetch2 (fmtDate y mo d) := by
      unfold dayModels
      rw [h d (List.mem_cons_self _ _)]
    rw [hdm]
    cases hfc : foldCounts agg (dayModels fetch2 (fmtDate y mo d)) with
    | none => rfl
    | some agg1 =>
      simp only []
      rw [ih agg1 (fun d2 hd2 => h d2 (List.mem_cons_of_mem _ hd2))]

/-! ## Support lemmas: densification -/

theorem rowDict_eq {r : DailyRow} (hdate : "Date" ∉ r.models.map Prod.fst)
    (hnd : (r.models.map Prod.fst).Nodup) :
    rowDict r = ("Date", Json.str r.date) :: r.models := by
  unfold rowDict
  apply dedupKeys_eq_self
  rw [List.map_cons]
  exact List.nodup_cons.mpr ⟨hdate, hnd⟩

theorem rowDict_lookup {r : DailyRow} (hdate : "Date" ∉ r.models.map Prod.fst)
    (hnd : (r.models.map Prod.fst).Nodup) (c : String) :
    (lastLookup (rowDict r) c).getD (Json.num 0) =
      if c = "Date" then Json.str r.date
      else (lastLookup r.models c).getD (Json.num 0) := by
  rw [rowDict_eq hdate hnd, lastLookup_cons]
  by_cases hc : c = "Date"
  · subst hc
    rw [lastLookup_eq_none_of_not_mem hdate]
    simp
  · cases hl : lastLookup r.models c with
    | some v => simp [hc]
    | none =>
      have : ¬("Date" = c) := fun h => hc h.symm
      simp [hc, this]

theorem addCols_mem {c : String} : ∀ (ks acc : List String),
    c ∈ addCols acc ks ↔ c ∈ acc ∨ c ∈ ks := by
  intro ks
  induction ks with
  | nil => intro acc; simp [addCols]
  | cons k rest ih =>
    intro acc
    unfold addCols at *
    rw [List.foldl_cons, ih]
    by_cases hc : acc.contains k
    · rw [if_pos hc]
      have hk0 : k ∈ acc := List.elem_iff.mp hc
      constructor
      · rintro (h | h)
        · exact Or.inl h
        · exact Or.inr (List.mem_cons_of_mem _ h)
      · rintro (h | h)
        · exact Or.inl h
        · rcases List.mem_cons.mp h with h | h
          · exact Or.inl (h ▸ hk0)
          · exact Or.inr h
    · rw [if_neg hc]
      rw [List.mem_append, List.mem_singleton, List.mem_cons]
      tauto

theorem foldl_addCols_mem {c : String} :
    ∀ (dicts : List (List (String × Json))) (acc : List String),
    c ∈ dicts.foldl (fun acc d => addCols acc (d.map Prod.fst)) acc ↔
      c ∈ acc ∨ ∃ d ∈ dicts, c ∈ d.map Prod.fst := by
  intro dicts
  induction dicts with
  | nil => intro acc; simp
  | cons d rest ih =>
    intro acc
    rw [List.foldl_cons, ih, addCols_mem]
    constructor
    · rintro ((h | h) | ⟨d2, hd2, h⟩)
      · exact Or.inl h
      · exact Or.inr ⟨d, List.mem_cons_self _ _, h⟩
      · exact Or.inr ⟨d2, List.mem_cons_of_mem _ hd2, h⟩
    · rintro (h | ⟨d2, hd2, h⟩)
      · exact Or.inl (Or.inl h)
      · rcases List.mem_cons.mp hd2 with hd2 | hd2
        · exact Or.inl (Or.inr (hd2 ▸ h))
        · exact Or.inr ⟨d2, hd2, h⟩

/-! ## Support lemmas: trailing window -/

theorem takeLast_length_le {α : Type} (n : Nat) (l : List α) :
    (takeLast n l).length ≤ n := by
  unfold takeLast
  rw [List.length_drop]
  omega

theorem takeLast_suffix {α : Type} (n : Nat) (l : List α) :
    takeLast n l <:+ l :=
  List.drop_suffix _ _

theorem takeLast_length {α β : Type} (n : Nat) (l : List α) (l2 : List β)
    (h : l.length = l2.length) : (takeLast n l).length = (takeLast n l2).length := by
  unfold takeLast
  rw [List.length_drop, List.length_drop, h]

/-! ## Support lemmas: the maker-metrics normalizer -/

theorem seriesFor_length (periods : List Json) (dataFields : List (String × Json))
    (maker : String) : (seriesFor periods dataFields maker).length = periods.length := by
  unfold seriesFor
  cases (lastLookup dataFields maker).getD (Json.arr []) with
  | arr s =>
    simp only []
    by_cases h : s.length = periods.length
    · rw [if_pos h]
      exact h
    · rw [if_neg h]
      exact List.length_replicate _ _
  | null => exact List.length_replicate _ _
  | bool b => exact List.length_replicate _ _
  | num n => exact List.length_replicate _ _
  | str s => exact List.length_replicate _ _
  | obj fs => exact List.length_replicate _ _

theorem seriesFromRows_length (periods rows : List Json) (maker : String) :
    (seriesFromRows periods rows maker).length = periods.length := by
  unfold seriesFromRows
  rw [List.length_map, List.length_range]

theorem shapedTable_some {periods data : Json} {t : MakerTable}
    (h : shapedTable periods data = some t) :
    ∃ (ps : List Json) (g : String → List Json),
      t = MakerTable.mk ps (MAKERS.map (fun mk => (mk, g mk))) ∧
      ∀ mk, (g mk).length = ps.length := by
  unfold shapedTable at h
  cases periods with
  | arr ps =>
    cases data with
    | obj dataFields =>
      refine ⟨ps, fun mk => seriesFor ps dataFields mk, ?_, ?_⟩
      · exact (Option.some.inj h).symm
      · intro mk
        exact seriesFor_length ps dataFields mk
    | arr rows =>
      refine ⟨ps, fun mk => seriesFromRows ps rows mk, ?_, ?_⟩
      · exact (Option.some.inj h).symm
      · intro mk
        exact seriesFromRows_length ps rows mk
    | null => cases h
    | bool b => cases h
    | num n => cases h
    | str s => cases h
  | null => cases h
  | bool b => cases h
  | num n => cases h
  | str s => cases h
  | obj fs => cases h

theorem mem_makers_map {g : String → List Json} {mk : String} {col : List Json}
    (h : (mk, col) ∈ MAKERS.map (fun m => (m, g m))) : col = g mk ∧ mk ∈ MAKERS := by
  rcases List.mem_map.mp h with ⟨m, hm, heq⟩
  rw [Prod.mk.injEq] at heq
  obtain ⟨h1, h2⟩ := heq
  subst h1
  exact ⟨h2.symm, hm⟩

theorem dropLegacy_makers (ps : List Json) (g : String → List Json) :
    dropLegacy (MakerTable.mk ps (MAKERS.map (fun mk => (mk, g mk))))
      = MakerTable.mk ps (MAKERS.map (fun mk => (mk, g mk))) := by
  unfold dropLegacy
  congr 1

theorem coerceTable_makers (ps : List Json) (g : String → List Json) :
    coerceTable (MakerTable.mk ps (MAKERS.map (fun mk => (mk, g mk))))
      = MakerTable.mk ps (MAKERS.map (fun mk => (mk, (g mk).map coerceCell))) := by
  unfold coerceTable
  congr 1

theorem rawTable_spec (r : HttpResult) :
    rawTable r = emptyTable ∨
    ∃ (ps : List Json) (g : String → List Json),
      rawTable r = MakerTable.mk ps (MAKERS.map (fun mk => (mk, (g mk).map coerceCell))) ∧
      ∀ mk, (g mk).length = ps.length := by
  unfold rawTable
  cases r with
  | fail => exact Or.inl rfl
  | resp status body =>
    simp only []
    by_cases hs : status ≠ 200
    · rw [if_pos hs]
      exact Or.inl (by trivial)
    · rw [if_neg hs]
      cases body with
      | none => exact Or.inl rfl
      | some js =>
        cases js with
        | obj fields =>
          cases hsh : shapedTable ((lastLookup fields "periods").getD (Json.arr []))
              (unwrapData ((lastLookup fields "data").getD (Json.obj []))) with
          | none =>
            simp only [hsh]
            exact Or.inl (by trivial)
          | some t =>
            simp only [hsh]
            obtain ⟨ps, g, ht, hlen⟩ := shapedTable_some hsh
            subst ht
            rw [dropLegacy_makers, coerceTable_makers]
            exact Or.inr ⟨ps, g, rfl, hlen⟩
        | null => exact Or.inl rfl
        | bool b => exact Or.inl rfl
        | num n => exact Or.inl rfl
        | str s => exact Or.inl rfl
        | arr xs => exact Or.inl rfl

theorem tailTable_empty (n : Nat) : tailTable n emptyTable = emptyTable := by
  unfold tailTable emptyTable takeLast
  simp

theorem fetch_maker_metrics_valid {tp : String} (r : HttpResult)
    (h : tp = "month" ∨ tp = "quarter" ∨ tp = "year") :
    fetch_maker_metrics tp r = tailTable (windowSize tp) (rawTable r) := by
  unfold fetch_maker_metrics
  rw [if_pos h]

/-! ## Support lemmas: the latest-value summarizer -/

theorem latestEntries_filterMap {cols : List (String × List Json)} :
    ∀ {ms : List String} {out : List (String × Int)},
    latestEntries cols ms = some out →
    out = ms.filterMap (fun mk =>
      (lastLookup cols mk).bind (fun col =>
        col.getLast?.bind (fun cell =>
          (pyInt cell).map (fun v => (mk, v))))) := by
  intro ms
  induction ms with
  | nil =>
    intro out h
    rw [latestEntries] at h
    cases h
    rfl
  | cons mk rest ih =>
    intro out h
    rw [latestEntries] at h
    cases hl : lastLookup cols mk with
    | none =>
      rw [hl] at h
      simp only [] at h
      rw [List.filterMap_cons]
      simp only [hl, Option.none_bind]
      exact ih h
    | some col =>
      rw [hl] at h
      simp only [] at h
      cases hg : col.getLast? with
      | none =>
        rw [hg] at h
        simp only [] at h
        cases h
      | some cell =>
        rw [hg] at h
        simp only [] at h
        cases hp : pyInt cell with
        | none =>
          rw [hp] at h
          simp only [] at h
          cases h
        | some v =>
          rw [hp] at h
          simp only [] at h
          cases hrest : latestEntries cols rest with
          | none => rw [hrest] at h; cases h
          | some out0 =>
            rw [hrest] at h
            rw [Option.map_some'] at h
            have hout := Option.some.inj h
            subst hout
            rw [List.filterMap_cons]
            simp only [hl, hg, hp, Option.some_bind, Option.map_some']
            rw [← ih hrest]

theorem latestEntries_all {cols : List (String × List Json)} :
    ∀ (ms : List String),
    (∀ mk ∈ ms, ∃ col cell v, lastLookup cols mk = some col ∧ col.getLast? = some cell ∧
      pyInt cell = some v) →
    ∃ out, latestEntries cols ms = some out ∧ out.length = ms.length := by
  intro ms
  induction ms with
  | nil => intro _; exact ⟨[], rfl, rfl⟩
  | cons mk rest ih =>
    intro h
    obtain ⟨col, cell, v, hcol, hcell, hv⟩ := h mk (List.mem_cons_self _ _)
    obtain ⟨out0, hout0, hlen0⟩ := ih (fun m hm => h m (List.mem_cons_of_mem _ hm))
    refine ⟨(mk, v) :: out0, ?_, ?_⟩
    · rw [latestEntries, hcol]
      simp only []
      rw [hcell]
      simp only []
      rw [hv]
      simp only []
      rw [hout0]
      rfl
    · simp [hlen0]

theorem pyInt_coerceCell (c : Json) : ∃ v, pyInt (coerceCell c) = some v :=
  ⟨_, rfl⟩

theorem lastLookup_mem {α : Type} {l : List (String × α)} {k : String} {v : α}
    (h : lastLookup l k = some v) : (k, v) ∈ l := by
  induction l with
  | nil => cases h
  | cons p rest ih =>
    rw [lastLookup_cons] at h
    cases hrest : lastLookup rest k with
    | some u =>
      rw [hrest] at h
      simp only [] at h
      exact List.mem_cons_of_mem _ (ih (hrest.trans h))
    | none =>
      rw [hrest] at h
      simp only [] at h
      by_cases hp : p.1 = k
      · rw [if_pos hp] at h
        have hv := Option.some.inj h
        have : (k, v) = p := by
          rw [← hp, ← hv]
        rw [this]
        exact List.mem_cons_self _ _
      · rw [if_neg hp] at h
        cases h

/-! ## The claims -/

/-- C5: the Model-Count Extractor probes `v2 → cars → models` first,
then `v1`, returning the first mapping found; when the input is not a
dict, or neither probe lands on a mapping, it returns the empty map
(and, being a total function, never raises).  The §8 example document
extracts to its models mapping. -/
theorem C5_extractor_probe_order :
    (∀ (j : Json) (m : List (String × Json)),
      tryVersion j "v2" = some m → extract_car_models j = m) ∧
    (∀ (j : Json) (m : List (String × Json)),
      tryVersion j "v2" = none → tryVersion j "v1" = some m → extract_car_models j = m) ∧
    (∀ j : Json, tryVersion j "v2" = none → tryVersion j "v1" = none →
      extract_car_models j = []) ∧
    (∀ j : Json, (∀ fields, j ≠ Json.obj fields) → extract_car_models j = []) ∧
    extract_car_models (Json.obj [("v2", Json.obj [("cars", Json.obj [("models",
      Json.obj [("ModelA", Json.num 3), ("ModelB", Json.num 1)])])])])
      = [("ModelA", Json.num 3), ("ModelB", Json.num 1)] := by
  refine ⟨?_, ?_, ?_, ?_, rfl⟩
  · intro j m h
    cases j with
    | obj fields => simp only [extract_car_models, h]
    | null => simp [tryVersion, jsonChild] at h
    | bool b => simp [tryVersion, jsonChild] at h
    | num n => simp [tryVersion, jsonChild] at h
    | str s => simp [tryVersion, jsonChild] at h
    | arr xs => simp [tryVersion, jsonChild] at h
  · intro j m h2 h1
    cases j with
    | obj fields => simp only [extract_car_models, h2, h1]
    | null => simp [tryVersion, jsonChild] at h1
    | bool b => simp [tryVersion, jsonChild] at h1
    | num n => simp [tryVersion, jsonChild] at h1
    | str s => simp [tryVersion, jsonChild] at h1
    | arr xs => simp [tryVersion, jsonChild] at h1
  · intro j h2 h1
    cases j with
    | obj fields => simp only [extract_car_models, h2, h1]
    | null => rfl
    | bool b => rfl
    | num n => rfl
    | str s => rfl
    | arr xs => rfl
  · intro j h
    cases j with
    | obj fields => exact absurd rfl (h fields)
    | null => rfl
    | bool b => rfl
    | num n => rfl
    | str s => rfl
    | arr xs => rfl

/-- Witness for C5: a document carrying only the `v1` schema is
extracted through the second probe. -/
theorem C5_extractor_probe_order_witness :
    extract_car_models (Json.obj [("v1", Json.obj [("cars", Json.obj [("models",
      Json.obj [("ModelX", Json.num 7)])])])]) = [("ModelX", Json.num 7)] :=
  C5_extractor_probe_order.2.1 _ _ (by rfl) (by rfl)

/-- The §8 maker-metrics example: periods 2024-01/2024-02, data
containing only tesla, allow-list containing byd. -/
def c3Body : Json := Json.obj [
  ("periods", Json.arr [Json.str "2024-01", Json.str "2024-02"]),
  ("data", Json.obj [("tesla", Json.arr [Json.num 10, Json.num 20])])]

def c3Result : HttpResult := HttpResult.resp 200 (some c3Body)

/-- C3 as stated is false: in the final output of the normalizer the
byd column is not `[null, null]` — the numeric-coercion step
(`to_numeric(...).fillna(0)`) has turned the null substitutes into
zeros, so the final byd column is `[0, 0]`. -/
theorem C3_counterexample :
    ¬ (lastLookup (fetch_maker_metrics "month" c3Result).cols "byd"
        = some [Json.null, Json.null]) := by
  intro h
  rw [show lastLookup (fetch_maker_metrics "month" c3Result).cols "byd"
      = some [Json.num 0, Json.num 0] from rfl] at h
  have := Option.some.inj h
  simp at this

/-- C3 amended: a maker absent from the data keeps a column in the
final output; that column is null-filled when the table is first built
and becomes `[0, 0]` after the numeric coercion, while the present
maker tesla keeps its original values `[10, 20]`. -/
theorem C3_absent_maker_column :
    lastLookup ((shapedTable (Json.arr [Json.str "2024-01", Json.str "2024-02"])
        (Json.obj [("tesla", Json.arr [Json.num 10, Json.num 20])])).getD emptyTable).cols "byd"
      = some [Json.null, Json.null] ∧
    lastLookup (fetch_maker_metrics "month" c3Result).cols "byd"
      = some [Json.num 0, Json.num 0] ∧
    lastLookup (fetch_maker_metrics "month" c3Result).cols "tesla"
      = some [Json.num 10, Json.num 20] ∧
    (fetch_maker_metrics "month" c3Result).period
      = [Json.str "2024-01", Json.str "2024-02"] :=
  ⟨rfl, rfl, rfl, rfl⟩

/-- C2: in every table the normalizer emits, every maker column is
aligned 1:1 with the period column; and in the dict-shaped branch, a
maker's upstream series that is not a list of exactly the period count
(too short, too long, missing, or not a sequence at all) is replaced
entirely by a null-filled series of the correct length. -/
theorem C2_series_alignment :
    (∀ (tp : String) (r : HttpResult) (maker : String) (col : List Json),
      (maker, col) ∈ (fetch_maker_metrics tp r).cols →
      col.length = (fetch_maker_metrics tp r).period.length) ∧
    (∀ (periods : List Json) (dataFields : List (String × Json)) (maker : String),
      (∀ xs, lastLookup dataFields maker = some (Json.arr xs) → xs.length ≠ periods.length) →
      seriesFor periods dataFields maker = List.replicate periods.length Json.null) := by
  constructor
  · intro tp r maker col hmem
    by_cases hv : tp = "month" ∨ tp = "quarter" ∨ tp = "year"
    · rw [fetch_maker_metrics_valid r hv] at hmem ⊢
      rcases rawTable_spec r with he | ⟨ps, g, heq, hlen⟩
      · rw [he, tailTable_empty] at hmem
        simp [emptyTable] at hmem
      · rw [heq] at hmem ⊢
        unfold tailTable at hmem ⊢
        simp only [] at hmem ⊢
        rw [List.map_map] at hmem
        obtain ⟨hcol, hmk⟩ := mem_makers_map hmem
        subst hcol
        apply takeLast_length
        rw [List.length_map, hlen]
    · unfold fetch_maker_metrics at hmem
      rw [if_neg hv] at hmem
      simp [emptyTable] at hmem
  · intro periods dataFields maker h
    unfold seriesFor
    cases hl : lastLookup dataFields maker with
    | none =>
      simp only [Option.getD]
      by_cases h0 : ([] : List Json).length = periods.length
      · rw [if_pos h0, ← h0]
        rfl
      · rw [if_neg h0]
    | some s =>
      simp only [Option.getD]
      cases s with
      | arr xs =>
        simp only []
        rw [if_neg (h xs hl)]
      | null => rfl
      | bool b => rfl
      | num n => rfl
      | str s2 => rfl
      | obj fs => rfl

/-- Witness for C2: byd's series has length 1 against two periods, so
its column is replaced by two nulls. -/
theorem C2_series_alignment_witness :
    seriesFor [Json.str "2024-01", Json.str "2024-02"]
      [("byd", Json.arr [Json.num 1])] "byd" = List.replicate 2 Json.null :=
  C2_series_alignment.2 _ _ _ (by
    intro xs h
    rw [show lastLookup [("byd", Json.arr [Json.num 1])] "byd"
        = some (Json.arr [Json.num 1]) from rfl] at h
    have h2 := Json.arr.inj (Option.some.inj h)
    rw [← h2]
    decide)

/-- C7: for a valid bucket the result is the pre-truncation table's
trailing window: at most 18 rows for month, 12 for quarter, 10 for
year, and the kept rows — the period column and every maker column —
are a suffix of the pre-truncation table in its original order. -/
theorem C7_trailing_window (tp : String) (r : HttpResult)
    (hv : tp = "month" ∨ tp = "quarter" ∨ tp = "year") :
    (fetch_maker_metrics tp r).period.length ≤ windowSize tp ∧
    (tp = "month" → (fetch_maker_metrics tp r).period.length ≤ 18) ∧
    (tp = "quarter" → (fetch_maker_metrics tp r).period.length ≤ 12) ∧
    (tp = "year" → (fetch_maker_metrics tp r).period.length ≤ 10) ∧
    (fetch_maker_metrics tp r).period <:+ (rawTable r).period ∧
    (∀ (maker : String) (col : List Json),
      (maker, col) ∈ (fetch_maker_metrics tp r).cols →
      ∃ col2, (maker, col2) ∈ (rawTable r).cols ∧ col <:+ col2 ∧
        col.length ≤ windowSize tp) := by
  rw [fetch_maker_metrics_valid r hv]
  unfold tailTable
  simp only []
  refine ⟨takeLast_length_le _ _, ?_, ?_, ?_, takeLast_suffix _ _, ?_⟩
  · intro h
    subst h
    exact takeLast_length_le _ _
  · intro h
    subst h
    exact takeLast_length_le _ _
  · intro h
    subst h
    exact takeLast_length_le _ _
  · intro maker col hmem
    rcases List.mem_map.mp hmem with ⟨p, hp, heq⟩
    rw [Prod.mk.injEq] at heq
    obtain ⟨h1, h2⟩ := heq
    refine ⟨p.2, ?_, ?_, ?_⟩
    · rw [← h1]
      exact hp
    · rw [← h2]
      exact takeLast_suffix _ _
    · rw [← h2]
      exact takeLast_length_le _ _

/-- Witness for C7: the truncated table for the §8 example keeps both
its periods (2 ≤ 18) as a suffix of the pre-truncation table. -/
theorem C7_trailing_window_witness :
    (fetch_maker_metrics "month" c3Result).period.length ≤ 18 ∧
    (fetch_maker_metrics "month" c3Result).period <:+ (rawTable c3Result).period :=
  ⟨(C7_trailing_window "month" c3Result (Or.inl rfl)).2.1 rfl,
   (C7_trailing_window "month" c3Result (Or.inl rfl)).2.2.2.2.1⟩

/-- C10: the Latest-Value Summarizer is total on every table the
Maker-Metrics Normalizer can produce: every maker column has been
coerced to numeric cells (nulls and unparseable values already
replaced by zero), so the `int()` conversion of each maker's
last-period value is always defined and `maker_latest_list` never
raises. -/
theorem C10_summarizer_total_on_normalizer_output (tp : String) (r : HttpResult) :
    (maker_latest_list (fetch_maker_metrics tp r)).isSome = true := by
  by_cases hv : tp = "month" ∨ tp = "quarter" ∨ tp = "year"
  · rw [fetch_maker_metrics_valid r hv]
    rcases rawTable_spec r with he | ⟨ps, g, heq, hlen⟩
    · rw [he, tailTable_empty]
      rfl
    · rw [heq]
      unfold tailTable maker_latest_list
      simp only []
      have hcols : (List.map (fun mk => (mk, List.map coerceCell (g mk))) MAKERS).map
          (fun p => (p.1, takeLast (windowSize tp) p.2))
          = MAKERS.map (fun mk => (mk, takeLast (windowSize tp) ((g mk).map coerceCell))) := by
        rw [List.map_map]
        rfl
      rw [hcols]
      by_cases hpe : (takeLast (windowSize tp) ps).isEmpty
      · rw [if_pos hpe]
        rfl
      · rw [if_neg hpe]
        have hall : ∀ mk ∈ MAKERS, ∃ col cell v,
            lastLookup (MAKERS.map (fun m =>
              (m, takeLast (windowSize tp) ((g m).map coerceCell)))) mk = some col ∧
            col.getLast? = some cell ∧ pyInt cell = some v := by
          intro mk hmk
          have hcol := lastLookup_map_self
            (fun m => takeLast (windowSize tp) ((g m).map coerceCell)) hmk
          have hlen2 : (takeLast (windowSize tp) ((g mk).map coerceCell)).length
              = (takeLast (windowSize tp) ps).length := by
            apply takeLast_length
            rw [List.length_map, hlen]
          have hne : takeLast (windowSize tp) ((g mk).map coerceCell) ≠ [] := by
            intro h0
            rw [h0] at hlen2
            have : takeLast (windowSize tp) ps = [] :=
              List.length_eq_zero.mp hlen2.symm
            rw [← List.isEmpty_iff] at this
            exact hpe this
          obtain ⟨cell, hcell⟩ :=
            Option.isSome_iff_exists.mp (List.getLast?_isSome.mpr hne)
          have hmemcell : cell ∈ (g mk).map coerceCell :=
            (takeLast_suffix _ _).subset (List.mem_of_mem_getLast? hcell)
          rcases List.mem_map.mp hmemcell with ⟨x, _, hx⟩
          obtain ⟨v, hv⟩ := pyInt_coerceCell x
          exact ⟨takeLast (windowSize tp) ((g mk).map coerceCell), cell, v,
            hcol, hcell, by rw [← hx]; exact hv⟩
        obtain ⟨out, hout, hlen7⟩ := latestEntries_all MAKERS hall
        rw [hout]
        simp only []
        have houtne : out.isEmpty = false := by
          cases out with
          | nil => exact absurd hlen7 (by decide)
          | cons a rest => rfl
        rw [houtne]
        rfl
  · unfold fetch_maker_metrics
    rw [if_neg hv]
    rfl

/-- C9: for a table with aligned columns (the pandas invariant), the
summarizer returns the empty ranking when there are no periods;
otherwise every successful result consists of exactly the pairs
(maker, integer value at the last period row) for the allow-listed
makers present as columns, sorted descending by value. -/
theorem C9_latest_ranking (t : MakerTable)
    (halign : ∀ p ∈ t.cols, p.2.length = t.period.length) :
    (t.period = [] → maker_latest_list t = some []) ∧
    (∀ out, maker_latest_list t = some out →
      out.Pairwise (fun a b => b.2 ≤ a.2) ∧
      out.Perm (MAKERS.filterMap (fun mk =>
        (lastLookup t.cols mk).bind (fun col =>
          col[t.period.length - 1]?.bind (fun cell =>
            (pyInt cell).map (fun v => (mk, v))))))) := by
  constructor
  · intro hpe
    unfold maker_latest_list
    rw [if_pos (by rw [hpe]; rfl)]
  · intro out hout
    unfold maker_latest_list at hout
    by_cases hpe : t.period.isEmpty
    · rw [if_pos hpe] at hout
      have hout2 := Option.some.inj hout
      subst hout2
      refine ⟨List.Pairwise.nil, ?_⟩
      have hp0 : t.period = [] := List.isEmpty_iff.mp hpe
      have hnil : MAKERS.filterMap (fun mk =>
          (lastLookup t.cols mk).bind (fun col =>
            col[t.period.length - 1]?.bind (fun cell =>
              (pyInt cell).map (fun v => (mk, v))))) = [] := by
        apply List.filterMap_eq_nil_iff.mpr
        intro mk _
        cases hl : lastLookup t.cols mk with
        | none => rfl
        | some col =>
          have hcl : col.length = t.period.length := halign (mk, col) (lastLookup_mem hl)
          have hc0 : col = [] := by
            apply List.length_eq_zero.mp
            rw [hcl, hp0]
            rfl
          subst hc0
          rw [Option.some_bind]
          rfl
      rw [hnil]
    · rw [if_neg hpe] at hout
      cases hle : latestEntries t.cols MAKERS with
      | none =>
        rw [hle] at hout
        cases hout
      | some out0 =>
        rw [hle] at hout
        simp only [] at hout
        by_cases ho : out0.isEmpty
        · rw [if_pos ho] at hout
          cases hout
        · rw [if_neg ho] at hout
          have hso := Option.some.inj hout
          subst hso
          refine ⟨sortDesc_pairwise out0, ?_⟩
          refine (sortDesc_perm out0).trans ?_
          rw [latestEntries_filterMap hle]
          have hcong : MAKERS.filterMap (fun mk =>
              (lastLookup t.cols mk).bind (fun col =>
                col.getLast?.bind (fun cell =>
                  (pyInt cell).map (fun v => (mk, v)))))
              = MAKERS.filterMap (fun mk =>
              (lastLookup t.cols mk).bind (fun col =>
                col[t.period.length - 1]?.bind (fun cell =>
                  (pyInt cell).map (fun v => (mk, v))))) := by
            apply List.filterMap_congr
            intro mk _
            cases hl : lastLookup t.cols mk with
            | none => rfl
            | some col =>
              rw [Option.some_bind, Option.some_bind, List.getLast?_eq_getElem?,
                halign (mk, col) (lastLookup_mem hl)]
          rw [hcong]

/-- Witness for C9: a concrete aligned table with one period and two
maker columns ranks byd (9) above tesla (4). -/
theorem C9_latest_ranking_witness :
    ([(("byd" : String), (9 : Int)), ("tesla", 4)].Pairwise (fun a b => b.2 ≤ a.2)) ∧
    ([(("byd" : String), (9 : Int)), ("tesla", 4)].Perm
      (MAKERS.filterMap (fun mk =>
        (lastLookup ([("tesla", [Json.num 4]), ("byd", [Json.num 9])]) mk).bind (fun col =>
          col[([Json.str "p"] : List Json).length - 1]?.bind (fun cell =>
            (pyInt cell).map (fun v => (mk, v))))))) :=
  (C9_latest_ranking (MakerTable.mk [Json.str "p"]
      [("tesla", [Json.num 4]), ("byd", [Json.num 9])])
    (by
      intro p hp
      fin_cases hp <;> rfl)).2
    [("byd", 9), ("tesla", 4)] (by rfl)

/-- C6: a month whose first day is strictly after today yields the
empty frame and empty summary for every fetch oracle (so no network
result can influence it — no call is observable); and for any month,
the run only depends on the oracle's answers at dates not after today:
two oracles that agree on every date `(y, mo, d) ≤ today` produce
identical results, so no day after today is ever fetched. -/
theorem C6_future_month_clamp :
    (∀ (fetch : String → Option Json) (today : Date) (y mo : Int),
      dateLt today (Date.mk y mo 1) = true →
      fetch_month_daily_aggregated fetch today y mo = some (Frame.mk [] [], [])) ∧
    (∀ (fetch fetch2 : String → Option Json) (today : Date) (y mo : Int),
      (∀ d : Int, dateLe (Date.mk y mo d) today = true →
        fetch (fmtDate y mo d) = fetch2 (fmtDate y mo d)) →
      fetch_month_daily_aggregated fetch today y mo
        = fetch_month_daily_aggregated fetch2 today y mo) := by
  constructor
  · intro fetch today y mo h
    unfold fetch_month_daily_aggregated
    rw [if_pos h]
  · intro fetch fetch2 today y mo hagree
    simp only [fetch_month_daily_aggregated]
    by_cases hstart : dateLt today (Date.mk y mo 1) = true
    · rw [if_pos hstart, if_pos hstart]
    · rw [Bool.not_eq_true] at hstart
      have hs2 : ¬(dateLt today (Date.mk y mo 1) = true) := by
        rw [hstart]
        exact Bool.false_ne_true
      rw [if_neg hs2, if_neg hs2]
      obtain ⟨hy, hm, hd1, hle⟩ := clampedEnd_spec today y mo hstart
      have hcong := runDays_congr
        (dayRange (minDate (Date.mk y mo (daysInMonth y mo)) today).day)
        ([] : List (String × Int))
        (fun d hd => by
          apply hagree
          rw [mem_dayRange] at hd
          have h1 : dateLe (Date.mk y mo d) (clampedEnd today y mo) = true := by
            rw [dateLe_iff]
            right
            refine ⟨hy.symm, Or.inr ⟨hm.symm, ?_⟩⟩
            exact hd.2
          exact dateLe_trans h1 hle)
      rw [hcong]

/-- Witness for C6: January 2025 requested while today is 2024-03-02
yields the empty frame and summary. -/
theorem C6_future_month_clamp_witness :
    fetch_month_daily_aggregated (fun _ => none) (Date.mk 2024 3 2) 2025 1
      = some (Frame.mk [] [], []) :=
  C6_future_month_clamp.1 _ _ _ _ (by rfl)

theorem rawTable_bad_status {s : Int} (b : Option Json) (hs : s ≠ 200) :
    rawTable (HttpResult.resp s b) = emptyTable := by
  unfold rawTable
  simp only []
  rw [if_pos hs]

theorem fetch_maker_metrics_of_raw_empty (tp : String) (r : HttpResult)
    (h : rawTable r = emptyTable) : fetch_maker_metrics tp r = emptyTable := by
  unfold fetch_maker_metrics
  by_cases hv : tp = "month" ∨ tp = "quarter" ∨ tp = "year"
  · rw [if_pos hv, h, tailTable_empty]
  · rw [if_neg hv]

/-- A daily document whose model count is the non-numeric string
"abc": `extract_car_models` happily returns it, and the aggregator's
`int(c)` then raises. -/
def c4Fetch : String → Option Json := fun ds =>
  if ds = "2024-03-01" then some (Json.obj [("v2", Json.obj [("cars", Json.obj [("models",
    Json.obj [("ModelA", Json.str "abc")])])])]) else none

/-- C4 as stated is false: a malformed model-count value (the
non-numeric string "abc") is not recovered locally — the unguarded
`int(c)` in the aggregation loop raises a `ValueError` that propagates
to the caller of the Monthly Aggregator (modelled as `none`). -/
theorem C4_counterexample :
    fetch_month_daily_aggregated c4Fetch (Date.mk 2024 3 2) 2024 3 = none := rfl

/-- C4 amended: transport failures, non-success statuses, malformed
JSON shapes and missing/misaligned series are recovered locally — a
run whose extracted model counts are all `int()`-convertible never
raises, a fully failing daily fetcher still yields a result with an
empty summary, and the maker normalizer maps transport failures,
non-200 statuses and unparseable bodies to the empty table — but
daily documents carrying model-count values that `int()` cannot
convert make the Monthly Aggregator raise. -/
theorem C4_error_containment :
    (∀ (fetch : String → Option Json) (today : Date) (y mo : Int),
      (∀ (ds : String), ∀ p ∈ dayModels fetch ds, (pyInt p.2).isSome = true) →
      (fetch_month_daily_aggregated fetch today y mo).isSome = true) ∧
    (∀ (today : Date) (y mo : Int), dateLt today (Date.mk y mo 1) = false →
      ∃ frame, fetch_month_daily_aggregated (fun _ => none) today y mo
        = some (frame, [])) ∧
    (∀ tp : String, fetch_maker_metrics tp HttpResult.fail = emptyTable) ∧
    (∀ (tp : String) (s : Int) (b : Option Json), s ≠ 200 →
      fetch_maker_metrics tp (HttpResult.resp s b) = emptyTable) ∧
    (∀ tp : String, fetch_maker_metrics tp (HttpResult.resp 200 none) = emptyTable) := by
  refine ⟨?_, ?_, ?_, ?_, ?_⟩
  · intro fetch today y mo h
    simp only [fetch_month_daily_aggregated]
    by_cases hstart : dateLt today (Date.mk y mo 1) = true
    · rw [if_pos hstart]
      rfl
    · rw [if_neg hstart]
      have hsome := @runDays_isSome fetch y mo
        (dayRange (minDate (Date.mk y mo (daysInMonth y mo)) today).day) []
        (fun d _ p hp => h (fmtDate y mo d) p hp)
      cases hrd : runDays fetch y mo
          (dayRange (minDate (Date.mk y mo (daysInMonth y mo)) today).day) [] with
      | none => rw [hrd] at hsome; simp at hsome
      | some pr =>
        obtain ⟨rows, agg⟩ := pr
        rfl
  · intro today y mo hstart
    have hrun : ∀ (days : List Int) (agg : List (String × Int)),
        runDays (fun _ => none) y mo days agg
          = some (days.map (fun d => DailyRow.mk (fmtDate y mo d) []), agg) := by
      intro days
      induction days with
      | nil => intro agg; rfl
      | cons d rest ih =>
        intro agg
        rw [runDays]
        have h1 : dayModels (fun _ => none) (fmtDate y mo d) = [] := rfl
        rw [h1, foldCounts]
        simp only []
        rw [ih agg]
        simp only []
        rw [List.map_cons]
    simp only [fetch_month_daily_aggregated]
    have hs2 : ¬(dateLt today (Date.mk y mo 1) = true) := by
      rw [hstart]
      exact Bool.false_ne_true
    rw [if_neg hs2, hrun]
    exact ⟨_, rfl⟩
  · intro tp
    exact fetch_maker_metrics_of_raw_empty tp _ rfl
  · intro tp s b hs
    exact fetch_maker_metrics_of_raw_empty tp _ (rawTable_bad_status b hs)
  · intro tp
    exact fetch_maker_metrics_of_raw_empty tp _ rfl

/-- Witness for C4's amended statement: a fully failing fetcher (every
day absent) still returns a result. -/
theorem C4_error_containment_witness :
    (fetch_month_daily_aggregated (fun _ => none) (Date.mk 2024 3 2) 2024 3).isSome
      = true :=
  C4_error_containment.1 _ _ _ _ (by
    intro ds p hp
    simp [dayModels] at hp)

/-- The §8 example month: day 1 yields {ModelA: 2}, day 2 yields
{ModelA: 1, ModelB: 5}, no other day fetchable. -/
def c1Fetch : String → Option Json := fun ds =>
  if ds = "2024-03-01" then some (Json.obj [("v2", Json.obj [("cars", Json.obj [("models",
    Json.obj [("ModelA", Json.num 2)])])])])
  else if ds = "2024-03-02" then some (Json.obj [("v2", Json.obj [("cars", Json.obj [("models",
    Json.obj [("ModelA", Json.num 1), ("ModelB", Json.num 5)])])])])
  else none

/-- C1: in every successful run, the summary's total for each model is
the sum of that model's per-day counts over the iterated days of the
month, and the summary is sorted descending by count; the §8 example
produces [("ModelB", 5), ("ModelA", 3)]. -/
theorem C1_monthly_totals :
    (∀ (fetch : String → Option Json) (today : Date) (y mo : Int)
       (frame : Frame) (summary : List (String × Int)),
      fetch_month_daily_aggregated fetch today y mo = some (frame, summary) →
      (∀ p ∈ summary,
        p.2 = ((clampedDays today y mo).map
          (fun d => perDayCount fetch y mo d p.1)).sum) ∧
      summary.Pairwise (fun a b => b.2 ≤ a.2)) ∧
    (fetch_month_daily_aggregated c1Fetch (Date.mk 2024 3 2) 2024 3).map Prod.snd
      = some [("ModelB", 5), ("ModelA", 3)] := by
  constructor
  · intro fetch today y mo frame summary hrun
    simp only [fetch_month_daily_aggregated] at hrun
    by_cases hstart : dateLt today (Date.mk y mo 1) = true
    · rw [if_pos hstart] at hrun
      have hinj := Option.some.inj hrun
      rw [Prod.mk.injEq] at hinj
      obtain ⟨_, hs⟩ := hinj
      rw [← hs]
      exact ⟨fun p hp => absurd hp (List.not_mem_nil p), List.Pairwise.nil⟩
    · rw [if_neg hstart] at hrun
      cases hrd : runDays fetch y mo
          (dayRange (minDate (Date.mk y mo (daysInMonth y mo)) today).day) [] with
      | none => rw [hrd] at hrun; cases hrun
      | some pr =>
        obtain ⟨rows, agg⟩ := pr
        rw [hrd] at hrun
        simp only [] at hrun
        have hinj := Option.some.inj hrun
        rw [Prod.mk.injEq] at hinj
        obtain ⟨_, hs⟩ := hinj
        obtain ⟨_, haggv, hnd⟩ := runDays_some_elim hrd
        have hndagg : (agg.map Prod.fst).Nodup := hnd (by simp)
        have hdayseq : clampedDays today y mo
            = dayRange (minDate (Date.mk y mo (daysInMonth y mo)) today).day := rfl
        constructor
        · intro p hp
          rw [← hs] at hp
          unfold monthlySummary at hp
          by_cases hae : agg.isEmpty
          · rw [if_pos hae] at hp
            simp at hp
          · rw [if_neg hae] at hp
            have hpagg : p ∈ agg := (sortDesc_perm agg).subset hp
            have hlook : lastLookup agg p.1 = some p.2 :=
              lastLookup_of_mem_nodup hndagg hpagg
            have hval : aggVal agg p.1 = p.2 := by
              unfold aggVal
              rw [hlook]
              rfl
            rw [← hval, haggv p.1, hdayseq]
            have h0 : aggVal [] p.1 = 0 := rfl
            rw [h0, Int.zero_add]
            congr 1
            apply List.map_congr_left
            intro d _
            rw [itemsSum_eq_perDay (dayModels_keys_nodup fetch (fmtDate y mo d))]
            rfl
        · rw [← hs]
          unfold monthlySummary
          by_cases hae : agg.isEmpty
          · rw [if_pos hae]
            exact List.Pairwise.nil
          · rw [if_neg hae]
            exact sortDesc_pairwise agg
  · rfl

/-- Witness for C1: the §8 example run instantiates the total and
sortedness statement. -/
theorem C1_monthly_totals_witness :
    (∀ p ∈ [(("ModelB" : String), (5 : Int)), ("ModelA", 3)],
      p.2 = ((clampedDays (Date.mk 2024 3 2) 2024 3).map
        (fun d => perDayCount c1Fetch 2024 3 d p.1)).sum) ∧
    ([(("ModelB" : String), (5 : Int)), ("ModelA", 3)].Pairwise
      (fun a b => b.2 ≤ a.2)) :=
  C1_monthly_totals.1 c1Fetch (Date.mk 2024 3 2) 2024 3
    (Frame.mk ["Date", "ModelA", "ModelB"]
      [[Json.str "2024-03-01", Json.num 2, Json.num 0],
       [Json.str "2024-03-02", Json.num 1, Json.num 5]])
    [("ModelB", 5), ("ModelA", 3)] (by rfl)

theorem consDict_lookup (ds : String) (models : List (String × Json))
    (hdate : "Date" ∉ models.map Prod.fst) (c : String) :
    (lastLookup (("Date", Json.str ds) :: models) c).getD (Json.num 0)
      = if c = "Date" then Json.str ds
        else (lastLookup models c).getD (Json.num 0) := by
  rw [lastLookup_cons]
  by_cases hc : c = "Date"
  · subst hc
    rw [lastLookup_eq_none_of_not_mem hdate]
    simp
  · cases hl : lastLookup models c with
    | some v => simp [hc]
    | none =>
      have : ¬("Date" = c) := fun h => hc h.symm
      simp [hc, this]

/-- C8: after densification every row carries a cell for every column
— the date cell for the `Date` column, the day's own count where the
model was seen that day, and a zero fill where it was absent — and the
column set is exactly `Date` plus the union of all per-day model-map
keys of the month.  (The `Date` label itself is assumed not to occur
as a model name, since the row dict would conflate the two.) -/
theorem C8_densified_matrix (fetch : String → Option Json) (today : Date) (y mo : Int)
    (frame : Frame) (summary : List (String × Int))
    (hrun : fetch_month_daily_aggregated fetch today y mo = some (frame, summary))
    (hstart : dateLt today (Date.mk y mo 1) = false)
    (hdate : ∀ d ∈ clampedDays today y mo,
      "Date" ∉ (dayModels fetch (fmtDate y mo d)).map Prod.fst) :
    frame.rows = (clampedDays today y mo).map (fun d =>
      frame.cols.map (fun c =>
        if c = "Date" then Json.str (fmtDate y mo d)
        else (lastLookup (dayModels fetch (fmtDate y mo d)) c).getD (Json.num 0))) ∧
    (∀ c, c ∈ frame.cols ↔ c = "Date" ∨ ∃ d ∈ clampedDays today y mo,
      c ∈ (dayModels fetch (fmtDate y mo d)).map Prod.fst) := by
  simp only [fetch_month_daily_aggregated] at hrun
  have hs2 : ¬(dateLt today (Date.mk y mo 1) = true) := by
    rw [hstart]
    exact Bool.false_ne_true
  rw [if_neg hs2] at hrun
  cases hrd : runDays fetch y mo
      (dayRange (minDate (Date.mk y mo (daysInMonth y mo)) today).day) [] with
  | none => rw [hrd] at hrun; cases hrun
  | some pr =>
    obtain ⟨rows, agg⟩ := pr
    rw [hrd] at hrun
    simp only [] at hrun
    have hinj := Option.some.inj hrun
    rw [Prod.mk.injEq] at hinj
    obtain ⟨hf, _⟩ := hinj
    obtain ⟨hrowseq, _, _⟩ := runDays_some_elim hrd
    subst hrowseq
    have hdayseq : clampedDays today y mo
        = dayRange (minDate (Date.mk y mo (daysInMonth y mo)) today).day := rfl
    rw [← hdayseq] at hf
    obtain ⟨hy, hm, hd1, hle⟩ := clampedEnd_spec today y mo hstart
    have hdicts : ((clampedDays today y mo).map (fun d =>
          DailyRow.mk (fmtDate y mo d) (dayModels fetch (fmtDate y mo d)))).map rowDict
        = (clampedDays today y mo).map (fun d =>
          ("Date", Json.str (fmtDate y mo d)) :: dayModels fetch (fmtDate y mo d)) := by
      rw [List.map_map]
      apply List.map_congr_left
      intro d hd
      exact rowDict_eq (hdate d hd) (dayModels_keys_nodup fetch _)
    constructor
    · rw [← hf]
      unfold densify
      simp only []
      rw [hdicts, List.map_map]
      apply List.map_congr_left
      intro d hd
      apply List.map_congr_left
      intro c _
      exact consDict_lookup (fmtDate y mo d) _ (hdate d hd) c
    · intro c
      rw [← hf]
      unfold densify
      simp only []
      rw [hdicts, foldl_addCols_mem]
      constructor
      · rintro (h | ⟨dict, hdict, hc⟩)
        · simp at h
        · rcases List.mem_map.mp hdict with ⟨d, hd, hdeq⟩
          subst hdeq
          rw [List.map_cons] at hc
          rcases List.mem_cons.mp hc with hc2 | hc2
          · exact Or.inl hc2
          · exact Or.inr ⟨d, hd, hc2⟩
      · rintro (h | ⟨d, hd, hc⟩)
        · subst h
          refine Or.inr ⟨("Date", Json.str (fmtDate y mo 1)) ::
            dayModels fetch (fmtDate y mo 1), ?_, ?_⟩
          · apply List.mem_map_of_mem
            rw [hdayseq]
            unfold clampedEnd at hd1
            exact mem_dayRange.mpr ⟨Int.le_refl 1, hd1⟩
          · simp
        · refine Or.inr ⟨("Date", Json.str (fmtDate y mo d)) ::
            dayModels fetch (fmtDate y mo d), List.mem_map_of_mem _ hd, ?_⟩
          simp only [List.map_cons, List.mem_cons]
          exact Or.inr hc

/-- Witness for C8: with every daily fetch failing, the densified
matrix for March 2024 (clamped at the 2nd) has the single column
`Date` and one date row per attempted day. -/
theorem C8_densified_matrix_witness :
    ((Frame.mk ["Date"] [[Json.str "2024-03-01"], [Json.str "2024-03-02"]]).rows
      = (clampedDays (Date.mk 2024 3 2) 2024 3).map (fun d =>
        (Frame.mk ["Date"] [[Json.str "2024-03-01"], [Json.str "2024-03-02"]]).cols.map
          (fun c =>
            if c = "Date" then Json.str (fmtDate 2024 3 d)
            else (lastLookup (dayModels (fun _ => none) (fmtDate 2024 3 d)) c).getD
              (Json.num 0)))) ∧
    (∀ c, c ∈ (Frame.mk ["Date"] [[Json.str "2024-03-01"], [Json.str "2024-03-02"]]).cols
      ↔ c = "Date" ∨ ∃ d ∈ clampedDays (Date.mk 2024 3 2) 2024 3,
        c ∈ (dayModels (fun _ => none) (fmtDate 2024 3 d)).map Prod.fst) :=
  C8_densified_matrix (fun _ => none) (Date.mk 2024 3 2) 2024 3
    (Frame.mk ["Date"] [[Json.str "2024-03-01"], [Json.str "2024-03-02"]]) []
    (by rfl) (by rfl)
    (by
      intro d _ h
      simp [dayModels] at h)
